import Mathlib

/-!
A verification development for the `kvs` log-structured key-value store.

The store (`src/kv.rs`) keeps an in-memory index from keys to the on-disk
location `(segment file, byte offset)` of the latest `Set` record, appends
JSON-encoded records to segment files named `<id>.log`, and compacts sealed
segments in the background.  This file shallowly embeds the store: a segment
file is the list of records it contains, byte offsets are computed from the
actual serde-json UTF-8 encoding of each record, and the directory is an
association list from paths to file contents.  The background compaction
task spawned inside `KvStore::set` is embedded as the pair of pure functions
`KvStore.compact` / `KvStore.merge`, exactly as the Rust methods compute.
-/

set_option autoImplicit false

deriving instance DecidableEq for Except

set_option maxRecDepth 40000

/-- `CommandType` from src/kv.rs: the two record variants. -/
inductive CommandType where
  | Set
  | Rm
deriving DecidableEq

/-- `Command` from src/kv.rs: one log record. -/
structure Command where
  cmd : CommandType
  key : String
  value : String
deriving DecidableEq

/-- serde-json escaping of a single character inside a JSON string: the two
mandatory escapes, the short control escapes, `\u00XX` (lowercase hex, via
`Nat.digitChar`) for the remaining controls, every other character itself. -/
def jsonEscape (c : Char) : List Char :=
  if c = '"' then ['\\', '"']
  else if c = '\\' then ['\\', '\\']
  else if c = '\x08' then ['\\', 'b']
  else if c = '\x09' then ['\\', 't']
  else if c = '\x0a' then ['\\', 'n']
  else if c = '\x0c' then ['\\', 'f']
  else if c = '\x0d' then ['\\', 'r']
  else if c.toNat < 32 then
    '\\' :: 'u' :: '0' :: '0' :: [Nat.digitChar (c.toNat / 16), Nat.digitChar (c.toNat % 16)]
  else [c]

/-- serde-json encoding of a string, quotes included. -/
def jsonStringEnc (s : String) : List Char :=
  '"' :: (s.data.flatMap jsonEscape ++ ['"'])

/-- serde serializes the unit enum variants `CommandType::Set` / `Rm` as strings. -/
def ctName : CommandType → String
  | .Set => "Set"
  | .Rm => "Rm"

/-- serde-json encoding of a `Command` record, as written by `serde_json::to_writer`. -/
def encodeCommand (c : Command) : List Char :=
  '\x7b' :: ("\"cmd\":".data ++ jsonStringEnc (ctName c.cmd)
    ++ ",\"key\":".data ++ jsonStringEnc c.key
    ++ ",\"value\":".data ++ jsonStringEnc c.value ++ ['\x7d'])

/-- UTF-8 encoding of one character as a byte list. -/
def charUtf8 (c : Char) : List Nat :=
  let n := c.toNat
  if n < 128 then [n]
  else if n < 2048 then [192 + n / 64, 128 + n % 64]
  else if n < 65536 then [224 + n / 4096, 128 + n / 64 % 64, 128 + n % 64]
  else [240 + n / 262144, 128 + n / 4096 % 64, 128 + n / 64 % 64, 128 + n % 64]

/-- UTF-8 byte stream of a character list. -/
def utf8Bytes (l : List Char) : List Nat := l.flatMap charUtf8

/-- UTF-8 byte length, the unit in which all file offsets are measured. -/
def utf8Len (l : List Char) : Nat := (utf8Bytes l).length

/-- On-disk byte size of one encoded record. -/
def cmdSize (c : Command) : Nat := utf8Len (encodeCommand c)

/-- Total byte size of a segment file holding the given records. -/
def fileBytes (f : List Command) : Nat := f.foldr (fun c n => cmdSize c + n) 0

/-- `KvStoreError` from src/error.rs, restricted to the kinds the claims touch
(message payloads elided). -/
inductive KvError where
  | keyNotFound
  | io
  | codec
  | parseInt
deriving DecidableEq

/-- A file path as the store manipulates it: either `<id>.log` inside the store
directory (`get_log_path`) or a tempfile outside it (`tempfile::Builder`). -/
inductive LogPath where
  | log (id : Nat)
  | temp (n : Nat)
deriving DecidableEq

/-- `get_log_id` from src/kv.rs: a path yields a segment id exactly when it is
`<decimal u16>.log`; tempfile paths do not parse. -/
def get_log_id : LogPath → Option Nat
  | .log id => some id
  | .temp _ => none

/-- `FilePointer` from src/kv.rs: the index value for a key. -/
structure FilePointer where
  path : LogPath
  offset : Nat
deriving DecidableEq

/-- The in-memory index `HashMap<String, FilePointer>`, as an association list
with first-match lookup. -/
abbrev Index := List (String × FilePointer)

/-- `HashMap::get`. -/
def mapGet (m : Index) (k : String) : Option FilePointer :=
  (m.find? (fun e => decide (e.1 = k))).map (·.2)

/-- `HashMap::insert` (replaces any previous binding). -/
def mapInsert (m : Index) (k : String) (fp : FilePointer) : Index :=
  (k, fp) :: m.filter (fun e => decide (e.1 ≠ k))

/-- `HashMap::remove`. -/
def mapErase (m : Index) (k : String) : Index :=
  m.filter (fun e => decide (e.1 ≠ k))

/-- The store directory: the files it holds, each with its decoded contents.
The list order stands in for `fs::read_dir` enumeration order. -/
abbrev Dir := List (LogPath × List Command)

/-- Open a file by name. -/
def dirGet (d : Dir) (p : LogPath) : Option (List Command) :=
  (d.find? (fun e => decide (e.1 = p))).map (·.2)

/-- Append one record to a file opened with `append(true).create(true)`:
appends to the existing contents, creating the file when absent. -/
def dirAppend (d : Dir) (p : LogPath) (c : Command) : Dir :=
  match d with
  | [] => [(p, [c])]
  | e :: rest => if e.1 = p then (p, e.2 ++ [c]) :: rest else e :: dirAppend rest p c

/-- Create an empty file when absent (effect of `append(true).create(true)`
followed by no writes). -/
def dirTouch (d : Dir) (p : LogPath) : Dir :=
  match dirGet d p with
  | some _ => d
  | none => d ++ [(p, [])]

/-- `fs::remove_file`. -/
def dirRemove (d : Dir) (p : LogPath) : Dir :=
  d.filter (fun e => decide (e.1 ≠ p))

/-- Seek to byte `off` in a file and stream-decode one record, as
`KvStore::get` does: at a record boundary the decoder yields that record, at
or past end-of-file the stream is exhausted (`Ok(None)` path), and inside a
record the decode fails. -/
def readAt : List Command → Nat → Except KvError (Option Command)
  | [], _ => .ok none
  | c :: rest, off =>
    if off = 0 then .ok (some c)
    else if off < cmdSize c then .error .codec
    else readAt rest (off - cmdSize c)

/-- `Config` from src/config.rs. -/
structure Config where
  filesize_limit : Nat
  compaction_thresh : Nat
deriving DecidableEq

/-- `Config::default()`. -/
def Config.default : Config := ⟨1024, 4⟩

/-- `KvStore` from src/kv.rs.  `dir` models the filesystem state of the store
directory; the buffered writer is the file `<id>.log` opened in append mode,
so its current offset is that file's byte size (every operation flushes). -/
structure KvStore where
  map : Index
  dir : Dir
  id : Nat
  config : Config
deriving DecidableEq

/-- Contents of the active segment file. -/
def activeContent (s : KvStore) : List Command :=
  (dirGet s.dir (.log s.id)).getD []

/-- `writer.seek(SeekFrom::Current(0))`: the writer's offset, i.e. the byte
size of the active segment. -/
def writerOffset (s : KvStore) : Nat := fileBytes (activeContent s)

/-- `KvStore::set` from src/kv.rs (the synchronous part; the background
compaction task it may spawn is embedded by `KvStore.compact` and
`KvStore.merge`, and its trigger condition by `compactionTriggered`).
Active-id arithmetic is `u16`, hence the `% 65536`. -/
def KvStore.set (s : KvStore) (key value : String) : KvStore :=
  let offset0 := writerOffset s
  if offset0 > s.config.filesize_limit then
    let newId := (s.id + 2) % 65536
    { s with id := newId,
             dir := dirAppend s.dir (.log newId) ⟨.Set, key, value⟩,
             map := mapInsert s.map key ⟨.log newId, 0⟩ }
  else
    { s with dir := dirAppend s.dir (.log s.id) ⟨.Set, key, value⟩,
             map := mapInsert s.map key ⟨.log s.id, offset0⟩ }

/-- The condition under which `KvStore::set` spawns the background compaction
task: the rollover branch is taken and `*id > 0 && *id % compaction_thresh * 2
== 0` holds for the pre-increment id (u16 multiplication wraps). -/
def compactionTriggered (s : KvStore) : Bool :=
  decide (writerOffset s > s.config.filesize_limit) &&
    (decide (0 < s.id) && decide (s.id % s.config.compaction_thresh * 2 % 65536 = 0))

/-- `KvStore::get` from src/kv.rs. -/
def KvStore.get (s : KvStore) (key : String) : Except KvError (Option String) :=
  match mapGet s.map key with
  | some fp =>
    match dirGet s.dir fp.path with
    | none => .error .io
    | some content =>
      match readAt content fp.offset with
      | .error e => .error e
      | .ok (some cmd) => .ok (some cmd.value)
      | .ok none => .ok none
  | none => .ok none

/-- `KvStore::remove` from src/kv.rs: returns the operation's result together
with the store state afterwards (unchanged on the `KeyNotFound` branch; the
flush after the append is implicit in the model). -/
def KvStore.remove (s : KvStore) (key : String) : Except KvError Unit × KvStore :=
  match mapGet s.map key with
  | some _ =>
    (.ok (), { s with dir := dirAppend s.dir (.log s.id) ⟨.Rm, key, ""⟩,
                      map := mapErase s.map key })
  | none => (.error .keyNotFound, s)

/-- One replay step of `load` from src/kv.rs: carry the index and the running
byte offset, insert the `(path, offset)` location on `Set`, delete on `Rm`. -/
def replayStep (p : LogPath) (acc : Index × Nat) (c : Command) : Index × Nat :=
  match c.cmd with
  | .Set => (mapInsert acc.1 c.key ⟨p, acc.2⟩, acc.2 + cmdSize c)
  | .Rm => (mapErase acc.1 c.key, acc.2 + cmdSize c)

/-- Replay a whole segment file into the index (`load`'s inner loop). -/
def replayFile (m : Index) (p : LogPath) (content : List Command) : Index :=
  (content.foldl (replayStep p) (m, 0)).1

/-- The segment ids found in the directory (`get_log_id` filter in `load`). -/
def logIds (d : Dir) : List Nat := d.filterMap (fun e => get_log_id e.1)

/-- `ids.sort_unstable()` in `load`: the ids in ascending order. -/
def sortedIds (d : Dir) : List Nat := List.insertionSort (· ≤ ·) (logIds d)

/-- Contents of segment `<i>.log` (the file exists whenever `i` was
enumerated, so the default is never reached on `load`'s inputs). -/
def fileFor (d : Dir) (i : Nat) : List Command := (dirGet d (.log i)).getD []

/-- `load` from src/kv.rs: rebuild the index by replaying segments in
ascending id order; `last_id` is the highest id seen, or `0` when none. -/
def load (d : Dir) : Index × Nat :=
  let ids := sortedIds d
  (ids.foldl (fun m i => replayFile m (.log i) (fileFor d i)) [],
   (ids.getLast?).getD 0)

/-- `KvStore::open` from src/kv.rs: replay the directory, then open the
writer on `<last_id>.log` in append+create mode, positioned at its end. -/
def KvStore.open (d : Dir) : KvStore :=
  let r := load d
  { map := r.1, dir := dirTouch d (.log r.2), id := r.2, config := Config.default }

/-- One record step of `KvStore::compact`'s scan: `acc` is the temp-file
contents so far, the temp index, and the read offset inside the current
segment.  A `Set` record is copied exactly when the snapshot index maps its
key to this segment and this read offset. -/
def scanRecord (map : Index) (path : LogPath) (tempPath : LogPath)
    (acc : List Command × Index × Nat) (c : Command) : List Command × Index × Nat :=
  let next := acc.2.2 + cmdSize c
  match c.cmd with
  | .Set =>
    match mapGet map c.key with
    | some v =>
      if v.path = path ∧ v.offset = acc.2.2 then
        (acc.1 ++ [c], mapInsert acc.2.1 c.key ⟨tempPath, fileBytes acc.1⟩, next)
      else (acc.1, acc.2.1, next)
    | none => (acc.1, acc.2.1, next)
  | .Rm => (acc.1, acc.2.1, next)

/-- `KvStore::compact` from src/kv.rs, as the pure function of the index
snapshot (taken under the read lock) and the directory: returns the temp-file
contents, the temp index, and the scanned segment paths (`immutable_ids`). -/
def KvStore.compact (map : Index) (d : Dir) (tempPath : LogPath) (max_id : Nat) :
    List Command × Index × List LogPath :=
  d.foldl (fun acc e =>
    match get_log_id e.1 with
    | some i =>
      if i ≤ max_id then
        let r := e.2.foldl (scanRecord map e.1 tempPath) (acc.1, acc.2.1, 0)
        (r.1, r.2.1, acc.2.2 ++ [e.1])
      else acc
    | none => acc) ([], [], [])

/-- `KvStore::merge` from src/kv.rs: rename the temp file to `<id>.log` in
the store directory, patch the index (skipping a key only when its current
location parses to a segment id greater than the merged id), and delete the
scanned segments.  `tempContent` is what the rename moves into the
directory. -/
def KvStore.merge (s : KvStore) (tempContent : List Command) (temp_map : Index)
    (immutable_ids : List LogPath) (id : Nat) : KvStore :=
  let new_path := LogPath.log id
  let dir1 := s.dir.filter (fun e => decide (e.1 ≠ new_path)) ++ [(new_path, tempContent)]
  let map1 := temp_map.foldl (fun m kv =>
    let skip :=
      match mapGet m kv.1 with
      | some fp =>
        match get_log_id fp.path with
        | some file_id => decide (file_id > id)
        | none => false
      | none => false
    if skip then m else mapInsert m kv.1 ⟨new_path, kv.2.offset⟩) s.map
  let dir2 := immutable_ids.foldl (fun dd p => dirRemove dd p) dir1
  { s with dir := dir2, map := map1 }

/-- `pathLe n p`: when `p` is a segment file its id is at most `n`. -/
def pathLe (n : Nat) : LogPath → Bool
  | .log i => decide (i ≤ n)
  | .temp _ => true

/-- The well-formedness the theorems assume of a store state: every segment
file present in the directory has an id at most the active id.  This holds
of every store the engine actually builds (`open` activates the highest id,
`set` only rolls the id forward, and `merge` publishes below the active id). -/
def idsLe (s : KvStore) : Bool :=
  s.dir.all (fun e => pathLe s.id e.1)

/-- Records of one segment paired with their path and start offsets, used to
state replay claims: `(path, start offset, record)` for each record. -/
def recordsFrom (p : LogPath) (off : Nat) : List Command → List (LogPath × Nat × Command)
  | [] => []
  | c :: rest => (p, off, c) :: recordsFrom p (off + cmdSize c) rest

/-- The full replayed stream of a directory, in ascending segment-id order —
the order in which `load` consumes records. -/
def replayedRecords (d : Dir) : List (LogPath × Nat × Command) :=
  (sortedIds d).flatMap (fun i => recordsFrom (.log i) 0 (fileFor d i))

/-- The last replayed record whose key is `k`, with its location. -/
def lastFor (k : String) (rs : List (LogPath × Nat × Command)) :
    Option (LogPath × Nat × Command) :=
  (rs.filter (fun r => decide (r.2.2.key = k))).getLast?

/-- The last record for `k` in one file together with its start offset:
the right-most match wins. -/
def replayFor (k : String) : Nat → List Command → Option (Nat × Command)
  | _, [] => none
  | off, c :: rest =>
    match replayFor k (off + cmdSize c) rest with
    | some r => some r
    | none => if c.key = k then some (off, c) else none

/-- Across a list of segment ids (replayed left to right), the last file
containing a record for `k` decides; returns `(segment id, offset, record)`. -/
def filesReplayFor (k : String) (d : Dir) : List Nat → Option (Nat × Nat × Command)
  | [] => none
  | i :: rest =>
    match filesReplayFor k d rest with
    | some r => some r
    | none => (replayFor k 0 (fileFor d i)).map (fun r => (i, r.1, r.2))

/-- `ClientRequestType` from src/network.rs. -/
inductive ClientRequestType where
  | Get
  | Set
  | Rm
deriving DecidableEq

/-- `ClientRequest` from src/network.rs. -/
structure ClientRequest where
  command_type : ClientRequestType
  key : String
  value : String
deriving DecidableEq

/-- Modelled from the spec: `ValueResponse` is referenced by src/server.rs and
src/client.rs but its definition is not under src/ (src/network.rs holds an
older combined `Response`); per the spec's response object and its
construction sites it is a single-field struct carrying `value`. -/
structure ValueResponse where
  value : String
deriving DecidableEq

/-- Modelled from the spec: `ErrorResponse`, the error counterpart of
`ValueResponse`, carrying the server's error message. -/
structure ErrorResponse where
  error : String
deriving DecidableEq

/-- serde-json encoding of a `ValueResponse`. -/
def encodeValueResponse (r : ValueResponse) : List Char :=
  '\x7b' :: ("\"value\":".data ++ jsonStringEnc r.value ++ ['\x7d'])

/-- serde-json encoding of an `ErrorResponse`. -/
def encodeErrorResponse (r : ErrorResponse) : List Char :=
  '\x7b' :: ("\"error\":".data ++ jsonStringEnc r.error ++ ['\x7d'])

/-- The `Display` text of the error kinds (src/error.rs `#[fail(display)]`;
payload text elided for the kinds that carry one). -/
def errDisplay : KvError → String
  | .keyNotFound => "Key not found"
  | .io => "IoError"
  | .codec => "SerdeError"
  | .parseInt => "ParseIntError"

/-- The per-connection body of `KvsServer::start` from src/server.rs: decode
one request, run it against the engine, and write the response — first a
single status byte (`[0]` on success, `[1]` on error), then one serde-json
object.  Returns the store afterwards and the exact response byte stream. -/
def KvsServer.handle (s : KvStore) (req : ClientRequest) : KvStore × List Nat :=
  match req.command_type with
  | .Set =>
    (s.set req.key req.value, 0 :: utf8Bytes (encodeValueResponse ⟨"OK"⟩))
  | .Rm =>
    match s.remove req.key with
    | (.ok _, s1) => (s1, 0 :: utf8Bytes (encodeValueResponse ⟨"OK"⟩))
    | (.error e, s1) => (s1, 1 :: utf8Bytes (encodeErrorResponse ⟨errDisplay e⟩))
  | .Get =>
    match s.get req.key with
    | .ok (some v) => (s, 0 :: utf8Bytes (encodeValueResponse ⟨v⟩))
    | .ok none => (s, 0 :: utf8Bytes (encodeValueResponse ⟨""⟩))
    | .error e => (s, 1 :: utf8Bytes (encodeErrorResponse ⟨errDisplay e⟩))

/-- The tail of `KvsClient::get` from src/client.rs: after a success status
byte, the decoded `ValueResponse` is mapped to `None` exactly when its value
is the empty string. -/
def KvsClient.interpretGetValue (r : ValueResponse) : Option String :=
  if r.value = "" then none else some r.value

/-- Store state for the compaction-publication scenario: key "k" lives at
offset 0 of sealed segment `4.log`; the active segment is `6.log` (as after a
rollover at old active id 4, which spawns compaction with `max_id = 4`). -/
def c3_store : KvStore :=
  { map := [("k", ⟨.log 4, 0⟩)],
    dir := [(.log 4, [⟨.Set, "k", "v"⟩]), (.log 6, [])],
    id := 6, config := Config.default }

/-- The compaction scan of `c3_store` with `max_id = 4`, performed under the
index read lock: it copies the live `Set` record for "k" into the temp file. -/
def c3_compacted : List Command × Index × List LogPath :=
  KvStore.compact c3_store.map c3_store.dir (.temp 0) 4

/-- A concurrent `remove("k")` that lands after the scan's read lock is
released and before `merge` takes the write lock. -/
def c3_removed : KvStore := (c3_store.remove "k").2

/-- Publication: `merge` renames the temp file to the reserved id
`max_id + 1 = 5` and patches the index. -/
def c3_merged : KvStore :=
  KvStore.merge c3_removed c3_compacted.1 c3_compacted.2.1 c3_compacted.2.2 5

/-! ## Basic lemmas about the index and the directory -/

theorem mapGet_insert_self (m : Index) (k : String) (fp : FilePointer) :
    mapGet (mapInsert m k fp) k = some fp := by
  simp [mapGet, mapInsert, List.find?]

theorem find?_filter_ne (m : Index) (k k2 : String) (h : k2 ≠ k) :
    (m.filter (fun e => decide (e.1 ≠ k))).find? (fun e => decide (e.1 = k2)) =
      m.find? (fun e => decide (e.1 = k2)) := by
  induction m with
  | nil => rfl
  | cons e rest ih =>
    rw [List.filter_cons]
    by_cases he : e.1 = k
    · rw [if_neg (by simp [he])]
      rw [ih, List.find?_cons_of_neg _
        (by simp only [decide_eq_true_eq, he]; exact fun hc => h hc.symm)]
    · rw [if_pos (by simp [he])]
      by_cases he2 : e.1 = k2
      · rw [List.find?_cons_of_pos _ (by simp [he2]),
          List.find?_cons_of_pos _ (by simp [he2])]
      · rw [List.find?_cons_of_neg _ (by simp [he2]),
          List.find?_cons_of_neg _ (by simp [he2]), ih]

theorem mapGet_insert_ne (m : Index) (k k2 : String) (fp : FilePointer) (h : k2 ≠ k) :
    mapGet (mapInsert m k fp) k2 = mapGet m k2 := by
  unfold mapGet mapInsert
  rw [List.find?_cons_of_neg _
    (by simp only [decide_eq_true_eq]; exact fun hc => h hc.symm)]
  rw [find?_filter_ne m k k2 h]

theorem mapGet_erase_self (m : Index) (k : String) :
    mapGet (mapErase m k) k = none := by
  simp only [mapGet, mapErase]
  induction m with
  | nil => rfl
  | cons e rest ih =>
    by_cases he : e.1 = k
    · simp [List.filter_cons, he, ih]
    · simp only [List.filter_cons, decide_not, List.find?_cons]
      simp [he, ih]

theorem mapGet_erase_ne (m : Index) (k k2 : String) (h : k2 ≠ k) :
    mapGet (mapErase m k) k2 = mapGet m k2 := by
  simp only [mapGet, mapErase, find?_filter_ne m k k2 h]

theorem dirGet_dirAppend_self (d : Dir) (p : LogPath) (c : Command) :
    dirGet (dirAppend d p c) p = some ((dirGet d p).getD [] ++ [c]) := by
  induction d with
  | nil => simp [dirAppend, dirGet, List.find?]
  | cons e rest ih =>
    by_cases he : e.1 = p
    · simp [dirAppend, he, dirGet, List.find?]
    · simp only [dirAppend, he, if_false]
      simp only [dirGet, List.find?_cons] at *
      simp [he, ih]

theorem dirGet_dirAppend_ne (d : Dir) (p q : LogPath) (c : Command) (h : q ≠ p) :
    dirGet (dirAppend d p c) q = dirGet d q := by
  induction d with
  | nil =>
    have : ¬ (p = q) := fun hc => h hc.symm
    simp [dirAppend, dirGet, List.find?, this]
  | cons e rest ih =>
    by_cases he : e.1 = p
    · have : ¬ (p = q) := fun hc => h hc.symm
      have he2 : ¬ (e.1 = q) := by rw [he]; exact this
      simp [dirAppend, he, dirGet, List.find?, this, he2]
    · simp only [dirAppend, he, if_false]
      simp only [dirGet, List.find?_cons] at *
      by_cases he2 : e.1 = q
      · simp [he2]
      · simp [he2, ih]

theorem dirGet_mem {d : Dir} {p : LogPath} {x : List Command}
    (h : dirGet d p = some x) : (p, x) ∈ d := by
  unfold dirGet at h
  cases hf : d.find? (fun e => decide (e.1 = p)) with
  | none => rw [hf] at h; simp at h
  | some e =>
    rw [hf] at h
    simp at h
    have hmem := List.mem_of_find?_eq_some hf
    have hpe := List.find?_some hf
    simp only [decide_eq_true_eq] at hpe
    obtain ⟨e1, e2⟩ := e
    simp only at hpe h
    rw [← hpe, ← h]
    exact hmem

theorem dirGet_isSome_of_mem {d : Dir} {p : LogPath} {x : List Command}
    (h : (p, x) ∈ d) : (dirGet d p).isSome := by
  unfold dirGet
  cases hf : d.find? (fun e => decide (e.1 = p)) with
  | some e => simp
  | none =>
    exfalso
    exact List.find?_eq_none.mp hf (p, x) h (by simp)

/-! ## Byte sizes and reading at a record boundary -/

theorem charUtf8_length_pos (c : Char) : 0 < (charUtf8 c).length := by
  unfold charUtf8
  by_cases h1 : c.toNat < 128
  · simp [h1]
  · by_cases h2 : c.toNat < 2048
    · simp [h1, h2]
    · by_cases h3 : c.toNat < 65536
      · simp [h1, h2, h3]
      · simp [h1, h2, h3]

theorem cmdSize_pos (c : Command) : 0 < cmdSize c := by
  have h := charUtf8_length_pos '\x7b'
  simp only [cmdSize, utf8Len, utf8Bytes, encodeCommand, List.flatMap_cons,
    List.length_append]
  omega

theorem fileBytes_cons (c : Command) (l : List Command) :
    fileBytes (c :: l) = cmdSize c + fileBytes l := rfl

theorem readAt_append_last (l : List Command) (c : Command) :
    readAt (l ++ [c]) (fileBytes l) = .ok (some c) := by
  induction l with
  | nil => simp [readAt, fileBytes]
  | cons x rest ih =>
    have hpos := cmdSize_pos x
    rw [List.cons_append, fileBytes_cons]
    unfold readAt
    rw [if_neg (by omega), if_neg (by omega)]
    rw [show cmdSize x + fileBytes rest - cmdSize x = fileBytes rest by omega]
    exact ih

/-! ## Well-formedness: segment ids bounded by the active id -/

theorem pathLe_mono {n m : Nat} {p : LogPath} (h : pathLe n p = true) (hnm : n ≤ m) :
    pathLe m p = true := by
  cases p with
  | log i => simp only [pathLe, decide_eq_true_eq] at *; omega
  | temp j => rfl

theorem le_of_idsLe {s : KvStore} {i : Nat} {cont : List Command}
    (hwf : idsLe s = true) (hmem : (LogPath.log i, cont) ∈ s.dir) : i ≤ s.id := by
  have h := List.all_eq_true.mp hwf ⟨LogPath.log i, cont⟩ hmem
  simpa [pathLe] using h

theorem dirGet_none_of_gt {s : KvStore} {j : Nat}
    (hwf : idsLe s = true) (hj : s.id < j) : dirGet s.dir (.log j) = none := by
  cases h : dirGet s.dir (.log j) with
  | none => rfl
  | some cont =>
    have := le_of_idsLe hwf (dirGet_mem h)
    omega

theorem mem_dirAppend {d : Dir} {p : LogPath} {c : Command} {e : LogPath × List Command}
    (h : e ∈ dirAppend d p c) : (∃ c2, (e.1, c2) ∈ d) ∨ e.1 = p := by
  induction d with
  | nil =>
    simp only [dirAppend, List.mem_singleton] at h
    right; rw [h]
  | cons f rest ih =>
    unfold dirAppend at h
    by_cases hf : f.1 = p
    · rw [if_pos hf] at h
      rcases List.mem_cons.mp h with h1 | h2
      · right; rw [h1]
      · left; exact ⟨e.2, List.mem_cons_of_mem _ h2⟩
    · rw [if_neg hf] at h
      rcases List.mem_cons.mp h with h1 | h2
      · left; refine ⟨e.2, ?_⟩; rw [h1]; exact List.mem_cons_self f rest
      · rcases ih h2 with ⟨c2, hm⟩ | hp
        · left; exact ⟨c2, List.mem_cons_of_mem _ hm⟩
        · right; exact hp

/-! ## Characterizing `KvStore.set` -/

theorem set_eq_roll (s : KvStore) (k v : String)
    (h : writerOffset s > s.config.filesize_limit) :
    s.set k v = { s with id := (s.id + 2) % 65536,
                         dir := dirAppend s.dir (.log ((s.id + 2) % 65536)) ⟨.Set, k, v⟩,
                         map := mapInsert s.map k ⟨.log ((s.id + 2) % 65536), 0⟩ } := by
  unfold KvStore.set
  rw [if_pos h]

theorem set_eq_noroll (s : KvStore) (k v : String)
    (h : ¬ writerOffset s > s.config.filesize_limit) :
    s.set k v = { s with dir := dirAppend s.dir (.log s.id) ⟨.Set, k, v⟩,
                         map := mapInsert s.map k ⟨.log s.id, writerOffset s⟩ } := by
  unfold KvStore.set
  rw [if_neg h]

theorem set_id_bounds (s : KvStore) (k v : String) (hs : s.id + 2 < 65536) :
    s.id ≤ (s.set k v).id ∧ (s.set k v).id ≤ s.id + 2 := by
  by_cases h : writerOffset s > s.config.filesize_limit
  · rw [set_eq_roll s k v h]
    simp [Nat.mod_eq_of_lt hs]
  · rw [set_eq_noroll s k v h]
    simp

theorem get_set_self (s : KvStore) (k v : String)
    (hwf : idsLe s = true) (hs : s.id + 2 < 65536) :
    (s.set k v).get k = .ok (some v) := by
  by_cases h : writerOffset s > s.config.filesize_limit
  · rw [set_eq_roll s k v h]
    have hmod : (s.id + 2) % 65536 = s.id + 2 := Nat.mod_eq_of_lt hs
    have hfresh : dirGet s.dir (.log ((s.id + 2) % 65536)) = none := by
      rw [hmod]; exact dirGet_none_of_gt hwf (by omega)
    unfold KvStore.get
    simp only [mapGet_insert_self]
    rw [dirGet_dirAppend_self, hfresh]
    simp [readAt]
  · rw [set_eq_noroll s k v h]
    unfold KvStore.get
    simp only [mapGet_insert_self]
    rw [dirGet_dirAppend_self]
    have hwo : writerOffset s = fileBytes ((dirGet s.dir (.log s.id)).getD []) := rfl
    rw [hwo]
    simp only [readAt_append_last]

theorem idsLe_set (s : KvStore) (k v : String)
    (hwf : idsLe s = true) (hs : s.id + 2 < 65536) :
    idsLe (s.set k v) = true := by
  have hwf' := List.all_eq_true.mp hwf
  by_cases h : writerOffset s > s.config.filesize_limit
  · rw [set_eq_roll s k v h]
    have hmod : (s.id + 2) % 65536 = s.id + 2 := Nat.mod_eq_of_lt hs
    unfold idsLe
    dsimp only
    apply List.all_eq_true.mpr
    intro e he
    rcases mem_dirAppend he with ⟨c2, hm⟩ | hp
    · exact pathLe_mono (hwf' (e.1, c2) hm) (by omega)
    · rw [hp]; simp [pathLe]
  · rw [set_eq_noroll s k v h]
    unfold idsLe
    dsimp only
    apply List.all_eq_true.mpr
    intro e he
    rcases mem_dirAppend he with ⟨c2, hm⟩ | hp
    · exact hwf' (e.1, c2) hm
    · rw [hp]; simp [pathLe]

theorem mapGet_set_self (s : KvStore) (k v : String) :
    mapGet (s.set k v).map k =
      some ⟨.log (s.set k v).id,
            if writerOffset s > s.config.filesize_limit then 0 else writerOffset s⟩ := by
  by_cases h : writerOffset s > s.config.filesize_limit
  · rw [set_eq_roll s k v h]
    simp [mapGet_insert_self, h]
  · rw [set_eq_noroll s k v h]
    simp [mapGet_insert_self, h]

/-! ## The claims -/

/-- C1: for every key `k` and non-empty values, a `get(k)` performed after
`set(k, v)` returns `Ok(Some(v))`, and when several sets of the same key have
occurred the most recent one wins: `set(k, v1); set(k, v2); get(k)` returns
`Ok(Some(v2))`.  The hypotheses say the store is well formed and the `u16`
active id has room to roll over (twice). -/
theorem c1_set_get_overwrite (s : KvStore) (k v v1 v2 : String)
    (hwf : idsLe s = true) (hs : s.id + 4 < 65536)
    (hv : v ≠ "") (hv1 : v1 ≠ "") (hv2 : v2 ≠ "") :
    (s.set k v).get k = .ok (some v) ∧
      ((s.set k v1).set k v2).get k = .ok (some v2) := by
  refine ⟨get_set_self s k v hwf (by omega), ?_⟩
  have h1 : idsLe (s.set k v1) = true := idsLe_set s k v1 hwf (by omega)
  have h2 := set_id_bounds s k v1 (by omega)
  exact get_set_self (s.set k v1) k v2 h1 (by omega)

/-- Witness for C1, at the store opened on an empty directory. -/
theorem c1_set_get_overwrite_inst :
    idsLe (KvStore.open []) = true ∧
      ((KvStore.open []).set "a" "x").get "a" = .ok (some "x") ∧
      (((KvStore.open []).set "a" "1").set "a" "2").get "a" = .ok (some "2") :=
  ⟨by decide,
   (c1_set_get_overwrite (KvStore.open []) "a" "x" "1" "2" (by decide) (by decide)
      (by decide) (by decide) (by decide)).1,
   (c1_set_get_overwrite (KvStore.open []) "a" "x" "1" "2" (by decide) (by decide)
      (by decide) (by decide) (by decide)).2⟩

/-- C4: `remove(k)` of an absent key returns `KeyNotFound` and changes
nothing; of a present key it appends a `Rm` record to the active segment,
deletes the index entry and returns ok — so after `set(k, v); remove(k)`,
`get(k)` returns `Ok(None)` and a second `remove(k)` returns `KeyNotFound`. -/
theorem c4_remove_semantics (s : KvStore) (k v : String) :
    (mapGet s.map k = none → s.remove k = (.error .keyNotFound, s)) ∧
    (mapGet s.map k ≠ none →
      s.remove k = (.ok (), { s with dir := dirAppend s.dir (.log s.id) ⟨.Rm, k, ""⟩,
                                     map := mapErase s.map k })) ∧
    ((s.set k v).remove k).1 = .ok () ∧
    (((s.set k v).remove k).2).get k = .ok none ∧
    (((s.set k v).remove k).2).remove k =
      (.error .keyNotFound, ((s.set k v).remove k).2) := by
  have hrem : (s.set k v).remove k =
      (.ok (), { s.set k v with
                 dir := dirAppend (s.set k v).dir (.log (s.set k v).id) ⟨.Rm, k, ""⟩,
                 map := mapErase (s.set k v).map k }) := by
    unfold KvStore.remove
    rw [mapGet_set_self]
  refine ⟨?_, ?_, ?_, ?_, ?_⟩
  · intro h
    unfold KvStore.remove
    rw [h]
  · intro h
    cases hm : mapGet s.map k with
    | none => exact absurd hm h
    | some fp =>
      unfold KvStore.remove
      rw [hm]
  · rw [hrem]
  · rw [hrem]
    unfold KvStore.get
    dsimp only
    rw [mapGet_erase_self]
  · rw [hrem]
    unfold KvStore.remove
    dsimp only
    rw [mapGet_erase_self]

/-- C5: on each `set`, if the writer's offset exceeds `filesize_limit` the
active id advances by exactly two and the record lands at offset `0` of the
fresh segment; otherwise the id is unchanged and the record is appended at
the current offset. -/
theorem c5_rollover_rule (s : KvStore) (k v : String)
    (hwf : idsLe s = true) (hs : s.id + 2 < 65536) :
    (writerOffset s > s.config.filesize_limit →
      (s.set k v).id = s.id + 2 ∧
      mapGet (s.set k v).map k = some ⟨.log (s.id + 2), 0⟩ ∧
      dirGet (s.set k v).dir (.log (s.id + 2)) = some [⟨.Set, k, v⟩]) ∧
    (¬ writerOffset s > s.config.filesize_limit →
      (s.set k v).id = s.id ∧
      mapGet (s.set k v).map k = some ⟨.log s.id, writerOffset s⟩ ∧
      activeContent (s.set k v) = activeContent s ++ [⟨.Set, k, v⟩]) := by
  constructor
  · intro h
    have hmod : (s.id + 2) % 65536 = s.id + 2 := Nat.mod_eq_of_lt hs
    have hfresh : dirGet s.dir (.log (s.id + 2)) = none := dirGet_none_of_gt hwf (by omega)
    rw [set_eq_roll s k v h]
    refine ⟨by simp [hmod], ?_, ?_⟩
    · dsimp only
      rw [hmod]
      exact mapGet_insert_self _ _ _
    · dsimp only
      rw [hmod, dirGet_dirAppend_self, hfresh]
      rfl
  · intro h
    rw [set_eq_noroll s k v h]
    refine ⟨rfl, mapGet_insert_self _ _ _, ?_⟩
    unfold activeContent
    dsimp only
    rw [dirGet_dirAppend_self]
    rfl

/-- Witness for C5, at the store opened on an empty directory (the no-rollover
branch fires; the rollover branch's antecedent is false there). -/
theorem c5_rollover_rule_inst :
    idsLe (KvStore.open []) = true ∧ (KvStore.open []).id + 2 < 65536 ∧
      ((writerOffset (KvStore.open []) > (KvStore.open []).config.filesize_limit →
        ((KvStore.open []).set "a" "x").id = (KvStore.open []).id + 2 ∧
        mapGet ((KvStore.open []).set "a" "x").map "a" =
          some ⟨.log ((KvStore.open []).id + 2), 0⟩ ∧
        dirGet ((KvStore.open []).set "a" "x").dir (.log ((KvStore.open []).id + 2)) =
          some [⟨.Set, "a", "x"⟩]) ∧
      (¬ writerOffset (KvStore.open []) > (KvStore.open []).config.filesize_limit →
        ((KvStore.open []).set "a" "x").id = (KvStore.open []).id ∧
        mapGet ((KvStore.open []).set "a" "x").map "a" =
          some ⟨.log (KvStore.open []).id, writerOffset (KvStore.open [])⟩ ∧
        activeContent ((KvStore.open []).set "a" "x") =
          activeContent (KvStore.open []) ++ [⟨.Set, "a", "x"⟩])) :=
  ⟨by decide, by decide, c5_rollover_rule (KvStore.open []) "a" "x" (by decide) (by decide)⟩

/-! ## Replay: characterizing `load` -/

theorem replay_foldl_mapGet (k : String) (p : LogPath) :
    ∀ (content : List Command) (m : Index) (off : Nat),
      mapGet ((content.foldl (replayStep p) (m, off)).1) k =
        (match replayFor k off content with
         | none => mapGet m k
         | some (o, c) => if c.cmd = .Set then some ⟨p, o⟩ else none) := by
  intro content
  induction content with
  | nil => intro m off; rfl
  | cons c rest ih =>
    intro m off
    rw [List.foldl_cons]
    cases hc : c.cmd with
    | Set =>
      have hstep : replayStep p (m, off) c = (mapInsert m c.key ⟨p, off⟩, off + cmdSize c) := by
        unfold replayStep; rw [hc]
      rw [hstep, ih (mapInsert m c.key ⟨p, off⟩) (off + cmdSize c)]
      simp only [replayFor]
      cases hr : replayFor k (off + cmdSize c) rest with
      | some r => rfl
      | none =>
        by_cases hk : c.key = k
        · rw [if_pos hk, hk, mapGet_insert_self]
          simp [hc]
        · rw [if_neg hk, mapGet_insert_ne _ _ _ _ (fun hc2 => hk hc2.symm)]
    | Rm =>
      have hstep : replayStep p (m, off) c = (mapErase m c.key, off + cmdSize c) := by
        unfold replayStep; rw [hc]
      rw [hstep, ih (mapErase m c.key) (off + cmdSize c)]
      simp only [replayFor]
      cases hr : replayFor k (off + cmdSize c) rest with
      | some r => rfl
      | none =>
        by_cases hk : c.key = k
        · rw [if_pos hk, hk, mapGet_erase_self]
          simp [hc]
        · rw [if_neg hk, mapGet_erase_ne _ _ _ (fun hc2 => hk hc2.symm)]

theorem replayFor_readAt {k : String} :
    ∀ {content : List Command} {off o : Nat} {c : Command},
      replayFor k off content = some (o, c) →
        off ≤ o ∧ readAt content (o - off) = .ok (some c) := by
  intro content
  induction content with
  | nil => intro off o c h; cases h
  | cons x rest ih =>
    intro off o c h
    have hpos := cmdSize_pos x
    simp only [replayFor] at h
    cases hr : replayFor k (off + cmdSize x) rest with
    | some r =>
      rw [hr] at h
      injection h with h2
      subst h2
      obtain ⟨h1, h2⟩ := ih hr
      refine ⟨by omega, ?_⟩
      unfold readAt
      rw [if_neg (by omega), if_neg (by omega)]
      rw [show o - off - cmdSize x = o - (off + cmdSize x) by omega]
      exact h2
    | none =>
      rw [hr] at h
      by_cases hk : x.key = k
      · rw [if_pos hk] at h
        injection h with h2
        injection h2 with ho hc
        subst ho
        subst hc
        exact ⟨Nat.le_refl _, by simp [readAt]⟩
      · rw [if_neg hk] at h
        cases h

theorem files_foldl_mapGet (k : String) (d : Dir) :
    ∀ (ids : List Nat) (m : Index),
      mapGet (ids.foldl (fun m2 i => replayFile m2 (.log i) (fileFor d i)) m) k =
        (match filesReplayFor k d ids with
         | none => mapGet m k
         | some (i, o, c) => if c.cmd = .Set then some ⟨.log i, o⟩ else none) := by
  intro ids
  induction ids with
  | nil => intro m; rfl
  | cons i rest ih =>
    intro m
    rw [List.foldl_cons, ih (replayFile m (.log i) (fileFor d i))]
    simp only [filesReplayFor]
    cases hr : filesReplayFor k d rest with
    | some r => rfl
    | none =>
      unfold replayFile
      rw [replay_foldl_mapGet k (.log i) (fileFor d i) m 0]
      cases hf : replayFor k 0 (fileFor d i) with
      | none => rfl
      | some r2 => rfl

theorem getLast?_cons_or {α : Type} (a : α) (l : List α) :
    (a :: l).getLast? = (match l.getLast? with
      | some x => some x
      | none => some a) := by
  cases l with
  | nil => rfl
  | cons b m =>
    cases hm : (b :: m).getLast? with
    | none =>
      exfalso
      induction m generalizing b with
      | nil => cases hm
      | cons b2 m2 ih2 => rw [List.getLast?_cons_cons] at hm; exact ih2 b2 hm
    | some y => rw [List.getLast?_cons_cons, hm]

theorem lastFor_cons (k : String) (r : LogPath × Nat × Command)
    (rs : List (LogPath × Nat × Command)) :
    lastFor k (r :: rs) =
      (match lastFor k rs with
       | some x => some x
       | none => if r.2.2.key = k then some r else none) := by
  unfold lastFor
  rw [List.filter_cons]
  by_cases hk : r.2.2.key = k
  · rw [if_pos (by simp [hk]), getLast?_cons_or]
    cases hl : (rs.filter (fun x => decide (x.2.2.key = k))).getLast? with
    | some x => rfl
    | none => rw [if_pos hk]
  · rw [if_neg (by simp [hk])]
    cases hl : (rs.filter (fun x => decide (x.2.2.key = k))).getLast? with
    | some x => rfl
    | none => rw [if_neg hk]

theorem lastFor_append (k : String) (l1 l2 : List (LogPath × Nat × Command)) :
    lastFor k (l1 ++ l2) =
      (match lastFor k l2 with
       | some x => some x
       | none => lastFor k l1) := by
  unfold lastFor
  rw [List.filter_append]
  cases hf2 : l2.filter (fun x => decide (x.2.2.key = k)) with
  | nil => rw [List.append_nil]; rfl
  | cons y ys =>
    rw [List.getLast?_append_cons]
    cases hy : (y :: ys).getLast? with
    | none =>
      exfalso
      rw [getLast?_cons_or] at hy
      cases h3 : ys.getLast? <;> rw [h3] at hy <;> cases hy
    | some z => rfl

theorem lastFor_recordsFrom (k : String) (p : LogPath) :
    ∀ (content : List Command) (off : Nat),
      lastFor k (recordsFrom p off content) =
        (replayFor k off content).map (fun r => (p, r.1, r.2)) := by
  intro content
  induction content with
  | nil => intro off; rfl
  | cons c rest ih =>
    intro off
    simp only [recordsFrom]
    rw [lastFor_cons, ih]
    simp only [replayFor]
    cases hr : replayFor k (off + cmdSize c) rest with
    | some r => rfl
    | none => by_cases hk : c.key = k <;> simp [hk]

theorem lastFor_replayed (k : String) (d : Dir) :
    ∀ ids : List Nat,
      lastFor k (ids.flatMap (fun i => recordsFrom (.log i) 0 (fileFor d i))) =
        (filesReplayFor k d ids).map (fun r => (LogPath.log r.1, r.2.1, r.2.2)) := by
  intro ids
  induction ids with
  | nil => rfl
  | cons i rest ih =>
    rw [List.flatMap_cons, lastFor_append, ih]
    simp only [filesReplayFor]
    cases hr : filesReplayFor k d rest with
    | some r => rfl
    | none =>
      rw [lastFor_recordsFrom]
      cases hf : replayFor k 0 (fileFor d i) <;> rfl

theorem filesReplayFor_mem {k : String} {d : Dir} :
    ∀ {ids : List Nat} {i o : Nat} {c : Command},
      filesReplayFor k d ids = some (i, o, c) →
        i ∈ ids ∧ replayFor k 0 (fileFor d i) = some (o, c) := by
  intro ids
  induction ids with
  | nil => intro i o c h; cases h
  | cons j rest ih =>
    intro i o c h
    simp only [filesReplayFor] at h
    cases hr : filesReplayFor k d rest with
    | some r =>
      rw [hr] at h
      injection h with h2
      subst h2
      obtain ⟨h1, h2⟩ := ih hr
      exact ⟨List.mem_cons_of_mem _ h1, h2⟩
    | none =>
      rw [hr] at h
      cases hf : replayFor k 0 (fileFor d j) with
      | none => rw [hf] at h; cases h
      | some r2 =>
        obtain ⟨a, b⟩ := r2
        rw [hf] at h
        simp only [Option.map_some'] at h
        injection h with h2
        injection h2 with hji h3
        injection h3 with ho hc
        subst hji
        subst ho
        subst hc
        exact ⟨List.mem_cons_self _ _, hf⟩

theorem mem_logIds_of_mem_sorted {d : Dir} {i : Nat} (h : i ∈ sortedIds d) :
    i ∈ logIds d :=
  (List.perm_insertionSort (· ≤ ·) (logIds d)).mem_iff.mp h

theorem dirGet_isSome_of_mem_logIds {d : Dir} {i : Nat} (h : i ∈ logIds d) :
    (dirGet d (.log i)).isSome := by
  unfold logIds at h
  obtain ⟨e, hmem, hid⟩ := List.mem_filterMap.mp h
  obtain ⟨p0, cont⟩ := e
  cases p0 with
  | log j =>
    simp only [get_log_id, Option.some.injEq] at hid
    subst hid
    exact dirGet_isSome_of_mem hmem
  | temp n => simp [get_log_id] at hid

theorem find?_append_some {α : Type} (p : α → Bool) {l1 : List α} (l2 : List α) {a : α}
    (h : l1.find? p = some a) : (l1 ++ l2).find? p = some a := by
  induction l1 with
  | nil => cases h
  | cons x rest ih =>
    rw [List.cons_append]
    cases hx : p x with
    | true => rw [List.find?_cons_of_pos _ hx] at h ⊢; exact h
    | false => rw [List.find?_cons_of_neg _ (by simp [hx])] at h ⊢; exact ih h

theorem dirGet_dirTouch_of_some {d : Dir} {p q : LogPath} {x : List Command}
    (h : dirGet d q = some x) : dirGet (dirTouch d p) q = some x := by
  unfold dirTouch
  cases hp : dirGet d p with
  | some y => exact h
  | none =>
    unfold dirGet at h ⊢
    cases hf : d.find? (fun e => decide (e.1 = q)) with
    | none => rw [hf] at h; cases h
    | some e =>
      rw [hf] at h
      rw [find?_append_some _ _ hf]
      exact h

theorem open_map (d : Dir) :
    (KvStore.open d).map =
      (sortedIds d).foldl (fun m i => replayFile m (.log i) (fileFor d i)) [] := rfl

theorem open_id (d : Dir) :
    (KvStore.open d).id = ((sortedIds d).getLast?).getD 0 := rfl

theorem open_dir (d : Dir) :
    (KvStore.open d).dir = dirTouch d (.log (((sortedIds d).getLast?).getD 0)) := rfl

/-- C2: `open` rebuilds the index by replaying the `<id>.log` files in
ascending id order, inserting the `(segment, offset)` location on `Set` and
deleting the key on `Remove`; hence for a key whose last replayed record is
a `Remove` the key is absent from the rebuilt index and `get` returns
`Ok(None)`, and for a key whose last replayed record is `Set{k, v}`, `get(k)`
after reopen returns `Ok(Some(v))`. -/
theorem c2_open_replay (d : Dir) (k : String) (p : LogPath) (o : Nat) (c : Command)
    (hlast : lastFor k (replayedRecords d) = some (p, o, c)) :
    (c.cmd = .Rm →
      mapGet (KvStore.open d).map k = none ∧ (KvStore.open d).get k = .ok none) ∧
    (c.cmd = .Set → (KvStore.open d).get k = .ok (some c.value)) := by
  unfold replayedRecords at hlast
  rw [lastFor_replayed] at hlast
  have hmapeq : mapGet (KvStore.open d).map k =
      (match filesReplayFor k d (sortedIds d) with
       | none => (none : Option FilePointer)
       | some (i, o2, c2) => if c2.cmd = .Set then some ⟨.log i, o2⟩ else none) := by
    rw [open_map]
    exact files_foldl_mapGet k d (sortedIds d) []
  cases hfr : filesReplayFor k d (sortedIds d) with
  | none => rw [hfr] at hlast; cases hlast
  | some r =>
    obtain ⟨i, o2, c2⟩ := r
    rw [hfr] at hlast hmapeq
    simp only [Option.map_some'] at hlast
    injection hlast with h2
    injection h2 with hp h3
    injection h3 with ho hc
    subst hp
    subst ho
    subst hc
    obtain ⟨hmem, hrf⟩ := filesReplayFor_mem hfr
    constructor
    · intro hcmd
      have hnone : mapGet (KvStore.open d).map k = none := by
        rw [hmapeq]
        simp [hcmd]
      refine ⟨hnone, ?_⟩
      unfold KvStore.get
      rw [hnone]
    · intro hcmd
      have hsome : mapGet (KvStore.open d).map k = some ⟨.log i, o2⟩ := by
        rw [hmapeq]
        simp [hcmd]
      have hdg : (dirGet d (.log i)).isSome :=
        dirGet_isSome_of_mem_logIds (mem_logIds_of_mem_sorted hmem)
      cases hcont : dirGet d (.log i) with
      | none => rw [hcont] at hdg; cases hdg
      | some cont =>
        have hfile : fileFor d i = cont := by unfold fileFor; rw [hcont]; rfl
        rw [hfile] at hrf
        obtain ⟨hle, hread⟩ := replayFor_readAt hrf
        rw [Nat.sub_zero] at hread
        have hdg2 : dirGet (KvStore.open d).dir (LogPath.log i) = some cont := by
          rw [open_dir]
          exact dirGet_dirTouch_of_some hcont
        unfold KvStore.get
        rw [hsome]
        dsimp only
        rw [hdg2]
        dsimp only
        rw [hread]

/-- Witness for C2: a directory with segments `0.log` (a `Set` for "b" and a
`Remove` for "a") and `2.log` (a later `Set` for "b"), listed out of
enumeration order; the later segment's record wins after reopen. -/
theorem c2_open_replay_inst :
    lastFor "b" (replayedRecords
        [(LogPath.log 2, [⟨.Set, "b", "2"⟩]),
         (LogPath.log 0, [⟨.Set, "b", "1"⟩, ⟨.Rm, "a", ""⟩])]) =
      some (.log 2, 0, ⟨.Set, "b", "2"⟩) ∧
    (((⟨.Set, "b", "2"⟩ : Command).cmd = .Rm →
      mapGet (KvStore.open
          [(LogPath.log 2, [⟨.Set, "b", "2"⟩]),
           (LogPath.log 0, [⟨.Set, "b", "1"⟩, ⟨.Rm, "a", ""⟩])]).map "b" = none ∧
      (KvStore.open
          [(LogPath.log 2, [⟨.Set, "b", "2"⟩]),
           (LogPath.log 0, [⟨.Set, "b", "1"⟩, ⟨.Rm, "a", ""⟩])]).get "b" = .ok none) ∧
    ((⟨.Set, "b", "2"⟩ : Command).cmd = .Set →
      (KvStore.open
          [(LogPath.log 2, [⟨.Set, "b", "2"⟩]),
           (LogPath.log 0, [⟨.Set, "b", "1"⟩, ⟨.Rm, "a", ""⟩])]).get "b" =
        .ok (some (⟨.Set, "b", "2"⟩ : Command).value))) :=
  ⟨by decide,
   c2_open_replay
     [(LogPath.log 2, [⟨.Set, "b", "2"⟩]),
      (LogPath.log 0, [⟨.Set, "b", "1"⟩, ⟨.Rm, "a", ""⟩])]
     "b" (.log 2) 0 ⟨.Set, "b", "2"⟩ (by decide)⟩

/-! ## C6: the compaction trigger -/

/-- C6 (amended): `set` spawns the background compaction task exactly when a
rollover occurs and the pre-increment active id is positive and divisible by
`compaction_thresh` (the new active id is two greater than that multiple);
the spawn is unconditional — the engine keeps no in-flight flag. -/
theorem c6_compaction_trigger (s : KvStore)
    (ht : 0 < s.config.compaction_thresh) (ht2 : s.config.compaction_thresh ≤ 32768) :
    compactionTriggered s = true ↔
      (writerOffset s > s.config.filesize_limit ∧
        0 < s.id ∧ s.id % s.config.compaction_thresh = 0) := by
  unfold compactionTriggered
  simp only [Bool.and_eq_true, decide_eq_true_eq]
  constructor
  · rintro ⟨h1, h2, h3⟩
    refine ⟨h1, h2, ?_⟩
    have hlt : s.id % s.config.compaction_thresh < s.config.compaction_thresh :=
      Nat.mod_lt _ ht
    rw [Nat.mod_eq_of_lt (by omega)] at h3
    omega
  · rintro ⟨h1, h2, h3⟩
    refine ⟨h1, h2, ?_⟩
    rw [h3]

/-- Counterexample for C6: a store at active id 4 whose active segment is
over the size limit (one large record, default config).  The code spawns
compaction (old id 4 is a positive multiple of `compaction_thresh = 4`), but
the new active id `(4 + 2) % 65536 = 6` is *not* a multiple of 4 — the claim's
"new active id is a positive multiple" condition is false at a launch. -/
theorem c6_trigger_counterexample :
    compactionTriggered
        { map := [("k", ⟨.log 4, 0⟩)],
          dir := [(.log 4, [⟨.Set, "k", String.mk (List.replicate 1100 'a')⟩])],
          id := 4, config := Config.default } = true ∧
      (((({ map := [("k", ⟨.log 4, 0⟩)],
            dir := [(.log 4, [⟨.Set, "k", String.mk (List.replicate 1100 'a')⟩])],
            id := 4, config := Config.default } : KvStore).id + 2) % 65536) %
        ({ map := [("k", ⟨.log 4, 0⟩)],
           dir := [(.log 4, [⟨.Set, "k", String.mk (List.replicate 1100 'a')⟩])],
           id := 4, config := Config.default } : KvStore).config.compaction_thresh ≠ 0) :=
  ⟨by decide, by decide⟩

/-- Witness for C6's trigger characterization at the freshly opened store. -/
theorem c6_compaction_trigger_inst :
    0 < (KvStore.open []).config.compaction_thresh ∧
      (KvStore.open []).config.compaction_thresh ≤ 32768 ∧
      (compactionTriggered (KvStore.open []) = true ↔
        (writerOffset (KvStore.open []) > (KvStore.open []).config.filesize_limit ∧
          0 < (KvStore.open []).id ∧
          (KvStore.open []).id % (KvStore.open []).config.compaction_thresh = 0)) :=
  ⟨by decide, by decide, c6_compaction_trigger (KvStore.open []) (by decide) (by decide)⟩

/-! ## C7: the active id after `open` -/

theorem mem_of_getLast? {α : Type} {l : List α} {y : α} (h : l.getLast? = some y) :
    y ∈ l := by
  induction l with
  | nil => cases h
  | cons a rest ih =>
    rw [getLast?_cons_or] at h
    cases hr : rest.getLast? with
    | some z =>
      rw [hr] at h
      injection h with h2
      subst h2
      exact List.mem_cons_of_mem _ (ih hr)
    | none =>
      rw [hr] at h
      injection h with h2
      subst h2
      exact List.mem_cons_self _ _

theorem lastD_cons (a : Nat) (l : List Nat) :
    ((a :: l).getLast?).getD 0 = (match l.getLast? with
      | some x => x
      | none => a) := by
  rw [getLast?_cons_or]
  cases l.getLast? <;> rfl

theorem sorted_le_lastD {l : List Nat} (hs : l.Sorted (· ≤ ·)) :
    ∀ x ∈ l, x ≤ (l.getLast?).getD 0 := by
  induction l with
  | nil => intro x hx; cases hx
  | cons a rest ih =>
    intro x hx
    have hs2 : rest.Sorted (· ≤ ·) := hs.of_cons
    have ha : ∀ y ∈ rest, a ≤ y := (List.sorted_cons.mp hs).1
    rw [lastD_cons]
    cases hl : rest.getLast? with
    | none =>
      have hnil : rest = [] := by
        cases hrest : rest with
        | nil => rfl
        | cons b m =>
          rw [hrest, getLast?_cons_or] at hl
          cases h3 : m.getLast? <;> rw [h3] at hl <;> cases hl
      subst hnil
      rcases List.mem_cons.mp hx with h | h
      · rw [h]
      · cases h
    | some y =>
      rcases List.mem_cons.mp hx with h | h
      · subst h
        exact ha y (mem_of_getLast? hl)
      · have := ih hs2 x h
        rw [hl] at this
        exact this

theorem lastD_mem_or_zero (l : List Nat) :
    (l.getLast?).getD 0 = 0 ∨ (l.getLast?).getD 0 ∈ l := by
  cases hl : l.getLast? with
  | none => left; rfl
  | some y => right; simpa using mem_of_getLast? hl

theorem find?_append_of_none {α : Type} (p : α → Bool) {l1 : List α} (l2 : List α)
    (h : l1.find? p = none) : (l1 ++ l2).find? p = l2.find? p := by
  induction l1 with
  | nil => rfl
  | cons x rest ih =>
    by_cases hx : p x
    · rw [List.find?_cons_of_pos _ hx] at h; cases h
    · rw [List.find?_cons_of_neg _ hx] at h
      rw [List.cons_append, List.find?_cons_of_neg _ hx]
      exact ih h

theorem dirGet_append_of_none {d : Dir} {p : LogPath} (h : dirGet d p = none)
    (x : List Command) : dirGet (d ++ [(p, x)]) p = some x := by
  have hf : d.find? (fun e => decide (e.1 = p)) = none := by
    unfold dirGet at h
    cases hf : d.find? (fun e => decide (e.1 = p)) with
    | none => rfl
    | some e => rw [hf] at h; simp at h
  unfold dirGet
  rw [find?_append_of_none _ _ hf]
  simp [List.find?]

/-- C7 (amended): after `open`, the active segment id equals the *highest*
segment id found in the directory (zero when there are none) — not one
greater, see the counterexample — and the writer is that segment opened in
append mode at its end, its prior contents preserved. -/
theorem c7_open_highest_id (d : Dir) :
    (∀ i ∈ logIds d, i ≤ (KvStore.open d).id) ∧
    ((KvStore.open d).id = 0 ∨ (KvStore.open d).id ∈ logIds d) ∧
    dirGet (KvStore.open d).dir (.log (KvStore.open d).id) =
      some (fileFor d (KvStore.open d).id) ∧
    writerOffset (KvStore.open d) = fileBytes (fileFor d (KvStore.open d).id) := by
  have hsorted : (sortedIds d).Sorted (· ≤ ·) := List.sorted_insertionSort _ _
  have hid := open_id d
  have h3 : dirGet (KvStore.open d).dir (.log (KvStore.open d).id) =
      some (fileFor d (KvStore.open d).id) := by
    rw [open_dir, open_id]
    cases hdq : dirGet d (.log (((sortedIds d).getLast?).getD 0)) with
    | some cont =>
      rw [dirGet_dirTouch_of_some hdq]
      unfold fileFor
      rw [hdq]
      rfl
    | none =>
      unfold dirTouch fileFor
      rw [hdq]
      simpa using dirGet_append_of_none hdq []
  refine ⟨?_, ?_, h3, ?_⟩
  · intro i hi
    rw [hid]
    exact sorted_le_lastD hsorted i
      ((List.perm_insertionSort (· ≤ ·) (logIds d)).mem_iff.mpr hi)
  · rw [hid]
    rcases lastD_mem_or_zero (sortedIds d) with h | h
    · left; exact h
    · right; exact mem_logIds_of_mem_sorted h
  · unfold writerOffset activeContent
    rw [h3]
    rfl

/-- Counterexample for C7: a directory holding only `4.log`.  After `open`
the active id is 4 (the highest id itself), not `4 + 1` as the claim says. -/
theorem c7_open_id_counterexample :
    (KvStore.open [(LogPath.log 4, [])]).id = 4 ∧
      (KvStore.open [(LogPath.log 4, [])]).id ≠ 4 + 1 :=
  ⟨by decide, by decide⟩

/-! ## C8: the wire exchange -/

/-- C8 (amended): the request direction carries one serde-json object, but
the server prefixes its response with a single raw status byte (`0` success,
`1` error) before the one response object; on success `Set` and `Remove`
answer the sentinel `"OK"`, `Get` answers the stored value — or the empty
string when the key is absent, which the client maps back to `None`. -/
theorem c8_wire_format (s : KvStore) (k v : String) :
    (KvsServer.handle s ⟨.Set, k, v⟩).2 = 0 :: utf8Bytes (encodeValueResponse ⟨"OK"⟩) ∧
    ((s.remove k).1 = .ok () →
      (KvsServer.handle s ⟨.Rm, k, ""⟩).2 = 0 :: utf8Bytes (encodeValueResponse ⟨"OK"⟩)) ∧
    ((s.remove k).1 = .error .keyNotFound →
      (KvsServer.handle s ⟨.Rm, k, ""⟩).2 =
        1 :: utf8Bytes (encodeErrorResponse ⟨"Key not found"⟩)) ∧
    (s.get k = .ok (some v) →
      (KvsServer.handle s ⟨.Get, k, ""⟩).2 = 0 :: utf8Bytes (encodeValueResponse ⟨v⟩)) ∧
    (s.get k = .ok none →
      (KvsServer.handle s ⟨.Get, k, ""⟩).2 = 0 :: utf8Bytes (encodeValueResponse ⟨""⟩)) ∧
    KvsClient.interpretGetValue ⟨""⟩ = none ∧
    (v ≠ "" → KvsClient.interpretGetValue ⟨v⟩ = some v) := by
  refine ⟨rfl, ?_, ?_, ?_, ?_, rfl, ?_⟩
  · intro h
    unfold KvsServer.handle
    dsimp only
    cases hsr : s.remove k with
    | mk r s1 =>
      rw [hsr] at h
      dsimp only at h
      subst h
      rfl
  · intro h
    unfold KvsServer.handle
    dsimp only
    cases hsr : s.remove k with
    | mk r s1 =>
      rw [hsr] at h
      dsimp only at h
      subst h
      rfl
  · intro h
    unfold KvsServer.handle
    dsimp only
    rw [h]
  · intro h
    unfold KvsServer.handle
    dsimp only
    rw [h]
  · intro h
    simp [KvsClient.interpretGetValue, h]

/-- Counterexample for C8: the server's response to a successful `Set` is not
the single self-delimiting serde-json object with no framing header that the
claim describes — the stream opens with raw status byte 0, while the encoded
response object itself opens with byte 123, a left brace. -/
theorem c8_framing_counterexample :
    (KvsServer.handle (KvStore.open []) ⟨.Set, "a", "b"⟩).2 ≠
        utf8Bytes (encodeValueResponse ⟨"OK"⟩) ∧
      ((KvsServer.handle (KvStore.open []) ⟨.Set, "a", "b"⟩).2).head? = some 0 ∧
      (utf8Bytes (encodeValueResponse ⟨"OK"⟩)).head? = some 123 :=
  ⟨by decide, by decide, by decide⟩

/-! ## C10: empty values in the engine versus on the wire -/

/-- C10: the engine accepts the empty string as a value — `set(k, "")`
succeeds and `get(k)` then returns `Ok(Some(""))` — yet the server encodes
that value exactly like an absent key (`ValueResponse` with the empty
string), which `KvsClient::get` maps to `None`: over the network an empty
stored value is indistinguishable from a missing key. -/
theorem c10_empty_value (s : KvStore) (k : String)
    (hwf : idsLe s = true) (hs : s.id + 2 < 65536) :
    (s.set k "").get k = .ok (some "") ∧
    KvsClient.interpretGetValue ⟨""⟩ = none ∧
    (KvsServer.handle (s.set k "") ⟨.Get, k, ""⟩).2 =
      0 :: utf8Bytes (encodeValueResponse ⟨""⟩) := by
  have h1 := get_set_self s k "" hwf hs
  refine ⟨h1, rfl, ?_⟩
  unfold KvsServer.handle
  dsimp only
  rw [h1]

/-- Witness for C10 at the store opened on an empty directory. -/
theorem c10_empty_value_inst :
    idsLe (KvStore.open []) = true ∧
      ((KvStore.open []).set "a" "").get "a" = .ok (some "") ∧
      KvsClient.interpretGetValue ⟨""⟩ = none ∧
      (KvsServer.handle ((KvStore.open []).set "a" "") ⟨.Get, "a", ""⟩).2 =
        0 :: utf8Bytes (encodeValueResponse ⟨""⟩) :=
  ⟨by decide,
   (c10_empty_value (KvStore.open []) "a" (by decide) (by decide)).1,
   (c10_empty_value (KvStore.open []) "a" (by decide) (by decide)).2.1,
   (c10_empty_value (KvStore.open []) "a" (by decide) (by decide)).2.2⟩

/-! ## C3: compaction publication undoes a concurrent remove -/

/-- C3: the code's publication step diverges from the claim.  `merge` skips
re-pointing a key only when its *current* index entry parses to a segment id
greater than the merged id; a key with *no* current entry is (re)inserted.
Concretely: "k" is live in sealed segment 4, the scan (`max_id = 4`) copies
it, a concurrent `remove("k")` then succeeds (`get` returns `Ok(None)`), and
`merge` at id 5 re-inserts "k" — `get("k")` returns `Ok(Some("v"))` again,
though the claim requires replacement only when the current location points
at a segment id ≤ `max_id`. -/
theorem c3_merge_resurrects_removed_key :
    c3_compacted.1 = [⟨.Set, "k", "v"⟩] ∧
    c3_compacted.2.1 = [("k", ⟨.temp 0, 0⟩)] ∧
    (c3_store.remove "k").1 = .ok () ∧
    c3_removed.get "k" = .ok none ∧
    mapGet c3_merged.map "k" = some ⟨.log 5, 0⟩ ∧
    c3_merged.get "k" = .ok (some "v") :=
  ⟨by decide, by decide, by decide, by decide, by decide, by decide⟩
